import Mathlib

/-!
Shallow embedding of `src/include/libforest/util.h` (namespace `libf`):
the `Util` helper functions `hammingDist` and `argMax`, and the class
`EfficientEntropyHistogram` with its incremental weighted-entropy bookkeeping.

Modelling conventions:
* C++ `int` values become `Int`; C++ `float` values become `Rat`
  (the claims are stated "in the exact arithmetic of the embedding").
* The external approximation `fastlog2` (declared in `fastlog.h`, not part
  of `src/`) is an explicit parameter `flog : Rat → Rat` of every operation
  that evaluates it: the code relies on no property of it.
* The field `bins` always equals the length of the `histogram` array after
  any constructor or `resize`, so the embedding represents the bin count as
  `histogram.length`.
* `BOOST_ASSERT_MSG` failures abort the operation before any mutation; the
  embedding makes the operations return `Except`, with the error kinds of
  the spec's taxonomy (`error_handling.h` is not part of `src/`).
-/

namespace libf

/-- Modelled from the spec: `error_handling.h` is not in `src/`, so the
three failure kinds follow the spec's error taxonomy (§7): `InvalidArgument`
for a negative bin count, `IndexOutOfRange` for a bad bin index,
`PreconditionViolation` for removing from an empty bin. -/
inductive HistogramError where
  | invalidArgument : HistogramError
  | indexOutOfRange : HistogramError
  | preconditionViolation : HistogramError
deriving DecidableEq, Repr

/-- The macro `ENTROPY(p) = (-(p)*fastlog2(p))` from `util.h`, with the
external `fastlog2` as the parameter `flog`. Note that C++ evaluates
`fastlog2(p)` even when `p = 0`. -/
def ENTROPY (flog : Rat → Rat) (p : Rat) : Rat := -p * flog p

/-- The class `EfficientEntropyHistogram`: per-bin integer counts
(`int* histogram`), cached per-bin contributions (`float* entropies`),
the scalar `float mass` and the scalar `float totalEntropy`. The stored
field `bins` is represented as `histogram.length`. -/
structure EfficientEntropyHistogram where
  histogram : List Int
  entropies : List Rat
  mass : Rat
  totalEntropy : Rat
deriving DecidableEq, Repr

namespace EfficientEntropyHistogram

/-- The default constructor: 0 bins, zero mass and entropy. -/
def empty : EfficientEntropyHistogram := ⟨[], [], 0, 0⟩

/-- Bin-count query `getSize` (the stored `bins` field). -/
def getSize (s : EfficientEntropyHistogram) : Int := s.histogram.length

/-- Mass query `getMass`. -/
def getMass (s : EfficientEntropyHistogram) : Rat := s.mass

/-- Entropy query `getEntropy`. -/
def getEntropy (s : EfficientEntropyHistogram) : Rat := s.totalEntropy

/-- Validity of a bin index: the condition `i >= 0 && i < bins` asserted by
`at`, `addOne` and `subOne`. -/
def validIndex (s : EfficientEntropyHistogram) (i : Int) : Prop :=
  0 ≤ i ∧ i < (s.histogram.length : Int)

instance (s : EfficientEntropyHistogram) (i : Int) : Decidable (s.validIndex i) :=
  inferInstanceAs (Decidable (_ ∧ _))

/-- The accessor `at(i)` (named `countAt` because `at` is reserved in Lean):
asserts the index range, then returns `histogram[i]`. -/
def countAt (s : EfficientEntropyHistogram) (i : Int) : Except HistogramError Int :=
  if s.validIndex i then .ok (s.histogram.getD i.toNat 0)
  else .error .indexOutOfRange

/-- The member function `reset`: zeroes every bin count and cached
contribution, and zeroes `mass` and `totalEntropy`; the bin count stays. -/
def reset (s : EfficientEntropyHistogram) : EfficientEntropyHistogram :=
  ⟨List.replicate s.histogram.length 0, List.replicate s.histogram.length 0, 0, 0⟩

/-- The member function `resize(newBins)`: asserts `newBins >= 0`; when
`newBins > 0` it (re)allocates both arrays and calls `reset`, giving the
all-zero state; when `newBins = 0` it only frees the arrays (when the bin
count changed), leaving `mass` and `totalEntropy` untouched — the
`reset()` call is inside `if (newBins > 0)` in the source. -/
def resize (newBins : Int) (s : EfficientEntropyHistogram) :
    Except HistogramError EfficientEntropyHistogram :=
  if newBins < 0 then .error .invalidArgument
  else if 0 < newBins then
    .ok ⟨List.replicate newBins.toNat 0, List.replicate newBins.toNat 0, 0, 0⟩
  else if s.histogram.length = 0 then .ok s
  else .ok ⟨[], [], s.mass, s.totalEntropy⟩

/-- The constructor `EfficientEntropyHistogram(int bins)`: zero-initializes
every field and then calls `resize(bins)`. -/
def mkHistogram (bins : Int) : Except HistogramError EfficientEntropyHistogram :=
  resize bins empty

/-- The state produced by constructing a histogram with `b ≥ 0` bins:
`b` zero bins, zero contributions, zero mass and entropy. -/
def freshHistogram (b : Nat) : EfficientEntropyHistogram :=
  ⟨List.replicate b 0, List.replicate b 0, 0, 0⟩

/-- The member function `addOne(i)`: asserts the index range, then performs,
in source order: `totalEntropy += ENTROPY(mass)`, `mass += 1`,
`totalEntropy -= ENTROPY(mass)`, `histogram[i]++`,
`totalEntropy -= entropies[i]`, `entropies[i] = ENTROPY(histogram[i])`,
`totalEntropy += entropies[i]`. -/
def addOne (flog : Rat → Rat) (i : Int) (s : EfficientEntropyHistogram) :
    Except HistogramError EfficientEntropyHistogram :=
  if s.validIndex i then
    let n : Nat := i.toNat
    let te1 : Rat := s.totalEntropy + ENTROPY flog s.mass
    let mass2 : Rat := s.mass + 1
    let te2 : Rat := te1 - ENTROPY flog mass2
    let c2 : Int := s.histogram.getD n 0 + 1
    let te3 : Rat := te2 - s.entropies.getD n 0
    let e2 : Rat := ENTROPY flog (c2 : Rat)
    .ok ⟨s.histogram.set n c2, s.entropies.set n e2, mass2, te3 + e2⟩
  else .error .indexOutOfRange

/-- The member function `subOne(i)`: asserts the index range and
`at(i) > 0`, then performs, in source order: `totalEntropy += ENTROPY(mass)`,
`mass -= 1`, `totalEntropy -= ENTROPY(mass)`, `histogram[i]--`,
`totalEntropy -= entropies[i]`, and then either `entropies[i] = 0` (when the
decremented count is `< 1`) or `entropies[i] = ENTROPY(histogram[i])`
followed by `totalEntropy += entropies[i]`. -/
def subOne (flog : Rat → Rat) (i : Int) (s : EfficientEntropyHistogram) :
    Except HistogramError EfficientEntropyHistogram :=
  if s.validIndex i then
    if s.histogram.getD i.toNat 0 > 0 then
      let n : Nat := i.toNat
      let te1 : Rat := s.totalEntropy + ENTROPY flog s.mass
      let mass2 : Rat := s.mass - 1
      let te2 : Rat := te1 - ENTROPY flog mass2
      let c2 : Int := s.histogram.getD n 0 - 1
      let te3 : Rat := te2 - s.entropies.getD n 0
      if c2 < 1 then
        .ok ⟨s.histogram.set n c2, s.entropies.set n 0, mass2, te3⟩
      else
        let e2 : Rat := ENTROPY flog (c2 : Rat)
        .ok ⟨s.histogram.set n c2, s.entropies.set n e2, mass2, te3 + e2⟩
    else .error .preconditionViolation
  else .error .indexOutOfRange

/-- Loop body of the member function `isPure`: scans the bins carrying the
`nonPure` flag; a second bin with a positive count returns `false`. -/
def isPureAux : List Int → Bool → Bool
  | [], _ => true
  | c :: rest, nonPure =>
    if c > 0 then
      if nonPure then false else isPureAux rest true
    else isPureAux rest nonPure

/-- The member function `isPure`: true when at most one bin holds a
positive count. -/
def isPure (s : EfficientEntropyHistogram) : Bool :=
  isPureAux s.histogram false

end EfficientEntropyHistogram

namespace Util

/-- Loop of `Util::hammingDist` over the common prefix of the two vectors:
counts the positions where the entries differ. -/
def mismatchCount {α : Type} [DecidableEq α] : List α → List α → Nat
  | a :: as, b :: bs => (if a ≠ b then 1 else 0) + mismatchCount as bs
  | _, _ => 0

/-- The function `Util::hammingDist`: starts from the length difference
(missing entries count as mismatches) and adds the number of differing
entries below the smaller length. -/
def hammingDist {α : Type} [DecidableEq α] (v1 v2 : List α) : Nat :=
  (if v1.length > v2.length then v1.length - v2.length
   else if v2.length > v1.length then v2.length - v1.length
   else 0) + mismatchCount v1 v2

/-- Loop of `Util::argMax`: carries the current maximum `arg`, its index
`index`, and the position `i` of the next element; updates on a strictly
greater element. -/
def argMaxGo {α : Type} [LinearOrder α] : List α → α → Nat → Nat → Nat
  | [], _, index, _ => index
  | x :: xs, arg, index, i =>
    if x > arg then argMaxGo xs x i (i + 1) else argMaxGo xs arg index (i + 1)

/-- The function `Util::argMax`: 0 on the empty vector, otherwise the scan
starting from `v[0]` at index 0. -/
def argMax {α : Type} [LinearOrder α] (v : List α) : Nat :=
  match v with
  | [] => 0
  | a :: rest => argMaxGo rest a 0 1

end Util

/-! ### List helper lemmas used by the invariant proofs -/

theorem getD_set_self {α : Type} (l : List α) (n : Nat) (v d : α) (h : n < l.length) :
    (l.set n v).getD n d = v := by
  induction l generalizing n with
  | nil => simp at h
  | cons a as ih =>
    cases n with
    | zero => simp [List.set, List.getD]
    | succ m =>
      simp only [List.set, List.getD, List.getElem?_cons_succ] at *
      exact ih m (by simpa using h)

theorem getD_set_other {α : Type} (l : List α) (m n : Nat) (v d : α) (h : m ≠ n) :
    (l.set n v).getD m d = l.getD m d := by
  induction l generalizing m n with
  | nil => simp [List.set]
  | cons a as ih =>
    cases n with
    | zero =>
      cases m with
      | zero => exact absurd rfl h
      | succ k => simp [List.set, List.getD]
    | succ n' =>
      cases m with
      | zero => simp [List.set, List.getD]
      | succ k =>
        simp only [List.set, List.getD, List.getElem?_cons_succ]
        exact ih k n' (fun hk => h (by simp [hk]))

theorem sum_set_int (l : List Int) (n : Nat) (v : Int) (h : n < l.length) :
    (l.set n v).sum = l.sum - l.getD n 0 + v := by
  induction l generalizing n with
  | nil => simp at h
  | cons a as ih =>
    cases n with
    | zero => simp [List.set, List.getD]; ring
    | succ m =>
      simp only [List.set, List.sum_cons, List.getD, List.getElem?_cons_succ]
      rw [ih m (by simpa using h)]
      simp [List.getD]; ring

theorem mapSum_set (f : Int → Rat) (l : List Int) (n : Nat) (v : Int) (h : n < l.length) :
    ((l.set n v).map f).sum = (l.map f).sum - f (l.getD n 0) + f v := by
  induction l generalizing n with
  | nil => simp at h
  | cons a as ih =>
    cases n with
    | zero => simp [List.set, List.getD]; ring
    | succ m =>
      simp only [List.set, List.map_cons, List.sum_cons, List.getD, List.getElem?_cons_succ]
      rw [ih m (by simpa using h)]
      simp [List.getD]; ring

theorem mem_of_mem_set {α : Type} (l : List α) (n : Nat) (v a : α)
    (ha : a ∈ l.set n v) : a ∈ l ∨ a = v := by
  induction l generalizing n with
  | nil => simp [List.set] at ha
  | cons b bs ih =>
    cases n with
    | zero =>
      rcases List.mem_cons.mp ha with h | h
      · exact Or.inr h
      · exact Or.inl (List.mem_cons_of_mem _ h)
    | succ m =>
      rcases List.mem_cons.mp ha with h | h
      · exact Or.inl (h ▸ List.mem_cons_self _ _)
      · rcases ih m h with h' | h'
        · exact Or.inl (List.mem_cons_of_mem _ h')
        · exact Or.inr h'

theorem getD_le_sum_int (l : List Int) (n : Nat) (h : n < l.length)
    (hnn : ∀ c ∈ l, 0 ≤ c) : l.getD n 0 ≤ l.sum := by
  induction l generalizing n with
  | nil => simp at h
  | cons a as ih =>
    have ha : 0 ≤ a := hnn a (List.mem_cons_self _ _)
    have has : 0 ≤ as.sum := List.sum_nonneg (fun c hc => hnn c (List.mem_cons_of_mem _ hc))
    cases n with
    | zero => simp [List.getD]; omega
    | succ m =>
      simp only [List.getD, List.get?_cons_succ, List.getElem?_cons_succ, List.sum_cons]
      have := ih m (by simpa using h) (fun c hc => hnn c (List.mem_cons_of_mem _ hc))
      simp only [List.getD] at this
      omega

theorem all_zero_of_sum_zero (l : List Int) (hnn : ∀ c ∈ l, 0 ≤ c) (hs : l.sum = 0) :
    ∀ c ∈ l, c = 0 := by
  induction l with
  | nil => simp
  | cons a as ih =>
    have ha : 0 ≤ a := hnn a (List.mem_cons_self _ _)
    have has : 0 ≤ as.sum := List.sum_nonneg (fun c hc => hnn c (List.mem_cons_of_mem _ hc))
    simp only [List.sum_cons] at hs
    have ha0 : a = 0 := by omega
    have hsum : as.sum = 0 := by omega
    intro c hc
    rcases List.mem_cons.mp hc with h | h
    · exact h ▸ ha0
    · exact ih (fun c' hc' => hnn c' (List.mem_cons_of_mem _ hc')) hsum c h

/-! ### Specification-side definitions for the entropy invariant -/

namespace EfficientEntropyHistogram

/-- Specification-side per-count entropy contribution:
`contribution(n) = -n·fastlog2(n)` for `n > 0` and `contribution(0) = 0`
(spec §3, data model of `entropyContributions`). -/
def contribution (flog : Rat → Rat) (n : Rat) : Rat :=
  if 0 < n then -n * flog n else 0

/-- Specification-side sum of the entropy contributions of all bin counts. -/
def entropySum (flog : Rat → Rat) (s : EfficientEntropyHistogram) : Rat :=
  (s.histogram.map (fun c : Int => contribution flog (c : Rat))).sum

/-- Specification-side sum of all bin counts, as a rational (the type of
`mass`). -/
def sumCounts (s : EfficientEntropyHistogram) : Rat :=
  ((s.histogram.sum : Int) : Rat)

/-- The full data-model invariant of the spec (§3): parallel array lengths,
non-negative counts, `mass = Σ counts`, cached contributions equal to
`contribution` of the counts, and
`totalEntropy = Σ contributions - contribution(mass)`. -/
def WellFormed (flog : Rat → Rat) (s : EfficientEntropyHistogram) : Prop :=
  s.entropies.length = s.histogram.length ∧
  (∀ c ∈ s.histogram, 0 ≤ c) ∧
  s.mass = sumCounts s ∧
  (∀ n, n < s.histogram.length →
    s.entropies.getD n 0 = contribution flog ((s.histogram.getD n 0 : Int) : Rat)) ∧
  s.totalEntropy = entropySum flog s - contribution flog s.mass

/-- States reachable from a freshly constructed histogram by valid
(successful) `addOne`/`subOne` calls. -/
inductive Reachable (flog : Rat → Rat) : EfficientEntropyHistogram → Prop where
  | fresh (b : Nat) : Reachable flog (freshHistogram b)
  | add (s s' : EfficientEntropyHistogram) (i : Int) (hs : Reachable flog s)
      (h : addOne flog i s = .ok s') : Reachable flog s'
  | sub (s s' : EfficientEntropyHistogram) (i : Int) (hs : Reachable flog s)
      (h : subOne flog i s = .ok s') : Reachable flog s'

/-- Iterated `addOne` on the same bin: `addOneN flog j n s` performs `n`
successive `addOne flog j` calls. -/
def addOneN (flog : Rat → Rat) (j : Int) : Nat → EfficientEntropyHistogram →
    Except HistogramError EfficientEntropyHistogram
  | 0, s => .ok s
  | n + 1, s => (addOneN flog j n s).bind (addOne flog j)

/-- Arguments at which `addOne(i)` evaluates `fastlog2`, in source order:
`ENTROPY(mass)` before the increment, `ENTROPY(mass)` after `mass += 1`,
and `ENTROPY(histogram[i])` after `histogram[i]++`. A failed assertion
aborts before any evaluation. -/
def addOneLogCalls (i : Int) (s : EfficientEntropyHistogram) : List Rat :=
  if s.validIndex i then
    [s.mass, s.mass + 1, ((s.histogram.getD i.toNat 0 + 1 : Int) : Rat)]
  else []

/-- Arguments at which `subOne(i)` evaluates `fastlog2`, in source order:
`ENTROPY(mass)` before the decrement, `ENTROPY(mass)` after `mass -= 1`,
and — only when the decremented count stays `>= 1` —
`ENTROPY(histogram[i])` after `histogram[i]--`. -/
def subOneLogCalls (i : Int) (s : EfficientEntropyHistogram) : List Rat :=
  if s.validIndex i then
    if s.histogram.getD i.toNat 0 > 0 then
      [s.mass, s.mass - 1] ++
        (if s.histogram.getD i.toNat 0 - 1 < 1 then []
         else [((s.histogram.getD i.toNat 0 - 1 : Int) : Rat)])
    else []
  else []

/-! ### Unfolding lemmas for the mutating operations -/

theorem getD_mem {α : Type} (l : List α) (n : Nat) (d : α) (h : n < l.length) :
    l.getD n d ∈ l := by
  induction l generalizing n with
  | nil => simp at h
  | cons a as ih =>
    cases n with
    | zero => simp [List.getD]
    | succ m =>
      simp only [List.getD, List.get?_cons_succ, List.getElem?_cons_succ]
      exact List.mem_cons_of_mem _ (ih m (by simpa using h))

theorem toNat_lt_length (s : EfficientEntropyHistogram) (i : Int) (h : s.validIndex i) :
    i.toNat < s.histogram.length := by
  rcases h with ⟨h0, hlt⟩
  omega

theorem addOne_ok_iff (flog : Rat → Rat) (i : Int) (s s' : EfficientEntropyHistogram) :
    addOne flog i s = .ok s' ↔
      s.validIndex i ∧
      s' = ⟨s.histogram.set i.toNat (s.histogram.getD i.toNat 0 + 1),
            s.entropies.set i.toNat
              (ENTROPY flog ((s.histogram.getD i.toNat 0 + 1 : Int) : Rat)),
            s.mass + 1,
            s.totalEntropy + ENTROPY flog s.mass - ENTROPY flog (s.mass + 1)
              - s.entropies.getD i.toNat 0
              + ENTROPY flog ((s.histogram.getD i.toNat 0 + 1 : Int) : Rat)⟩ := by
  unfold addOne
  by_cases hv : s.validIndex i
  · simp only [hv, if_true, Except.ok.injEq, true_and]
    constructor
    · intro h; exact h.symm
    · intro h; exact h.symm
  · simp [hv]

theorem subOne_ok_iff (flog : Rat → Rat) (i : Int) (s s' : EfficientEntropyHistogram) :
    subOne flog i s = .ok s' ↔
      s.validIndex i ∧ 0 < s.histogram.getD i.toNat 0 ∧
      s' = (if s.histogram.getD i.toNat 0 - 1 < 1 then
             (⟨s.histogram.set i.toNat (s.histogram.getD i.toNat 0 - 1),
               s.entropies.set i.toNat 0,
               s.mass - 1,
               s.totalEntropy + ENTROPY flog s.mass - ENTROPY flog (s.mass - 1)
                 - s.entropies.getD i.toNat 0⟩ : EfficientEntropyHistogram)
           else
             ⟨s.histogram.set i.toNat (s.histogram.getD i.toNat 0 - 1),
               s.entropies.set i.toNat
                 (ENTROPY flog ((s.histogram.getD i.toNat 0 - 1 : Int) : Rat)),
               s.mass - 1,
               s.totalEntropy + ENTROPY flog s.mass - ENTROPY flog (s.mass - 1)
                 - s.entropies.getD i.toNat 0
                 + ENTROPY flog ((s.histogram.getD i.toNat 0 - 1 : Int) : Rat)⟩) := by
  unfold subOne
  by_cases hv : s.validIndex i
  · by_cases hc : s.histogram.getD i.toNat 0 > 0
    · simp only [hv, if_true, hc, gt_iff_lt, true_and]
      by_cases hlt : s.histogram.getD i.toNat 0 - 1 < 1
      · simp only [hlt, if_true, Except.ok.injEq]
        constructor
        · intro h; exact h.symm
        · intro h; exact h.symm
      · simp only [hlt, if_false, Except.ok.injEq]
        constructor
        · intro h; exact h.symm
        · intro h; exact h.symm
    · rw [if_pos hv, if_neg hc]
      constructor
      · intro h; exact Except.noConfusion h
      · rintro ⟨-, h2, -⟩; exact absurd h2 hc
  · rw [if_neg hv]
    constructor
    · intro h; exact Except.noConfusion h
    · rintro ⟨h1, -⟩; exact absurd h1 hv

/-! ### Preservation of the data-model invariant -/

theorem ENTROPY_eq_contribution (flog : Rat → Rat) (n : Rat) (h : 0 ≤ n) :
    ENTROPY flog n = contribution flog n := by
  rcases lt_or_eq_of_le h with h' | h'
  · simp [ENTROPY, contribution, h']
  · simp [ENTROPY, contribution, ← h']

theorem wellFormed_fresh (flog : Rat → Rat) (b : Nat) :
    WellFormed flog (freshHistogram b) := by
  refine ⟨by simp [freshHistogram], ?_, ?_, ?_, ?_⟩
  · intro c hc
    simp [freshHistogram, List.eq_of_mem_replicate hc]
  · simp [freshHistogram, sumCounts]
  · intro n hn
    simp only [freshHistogram] at hn ⊢
    have h1 : (List.replicate b (0 : Rat)).getD n 0 = 0 := by
      rcases Nat.lt_or_ge n b with h | h
      · simp [List.getD, List.getElem?_replicate, h]
      · simp at hn; omega
    have h2 : (List.replicate b (0 : Int)).getD n 0 = 0 := by
      simp only [List.length_replicate] at hn
      simp [List.getD, List.getElem?_replicate, hn]
    rw [h1, h2]
    simp [contribution]
  · simp only [freshHistogram, entropySum, List.map_replicate]
    have : contribution flog ((0 : Int) : Rat) = 0 := by simp [contribution]
    rw [this]
    simp [contribution]

theorem mass_nonneg_of_wellFormed (flog : Rat → Rat) (s : EfficientEntropyHistogram)
    (hwf : WellFormed flog s) : 0 ≤ s.mass := by
  rcases hwf with ⟨-, hnn, hm, -, -⟩
  rw [hm]
  have : (0 : Int) ≤ s.histogram.sum := List.sum_nonneg hnn
  unfold sumCounts
  exact_mod_cast this

theorem wellFormed_addOne (flog : Rat → Rat) (i : Int) (s s' : EfficientEntropyHistogram)
    (hwf : WellFormed flog s) (h : addOne flog i s = .ok s') : WellFormed flog s' := by
  rcases (addOne_ok_iff flog i s s').mp h with ⟨hv, rfl⟩
  rcases hwf with ⟨hlen, hnn, hm, hent, hte⟩
  have hn : i.toNat < s.histogram.length := toNat_lt_length s i hv
  have hne : i.toNat < s.entropies.length := by omega
  set n : Nat := i.toNat
  set c : Int := s.histogram.getD n 0
  have hc0 : 0 ≤ c := hnn _ (getD_mem _ _ _ hn)
  refine ⟨by simp [hlen], ?_, ?_, ?_, ?_⟩
  · intro x hx
    rcases mem_of_mem_set _ _ _ _ hx with h' | h'
    · exact hnn x h'
    · omega
  · simp only [sumCounts, sum_set_int s.histogram n (c + 1) hn]
    rw [hm]
    unfold sumCounts
    push_cast
    ring
  · intro m hm'
    simp only [List.length_set] at hm'
    by_cases hmn : m = n
    · subst hmn
      rw [getD_set_self _ _ _ _ hne, getD_set_self _ _ _ _ hn]
      rw [ENTROPY_eq_contribution]
      exact_mod_cast (by omega : (0 : Int) ≤ c + 1)
    · rw [getD_set_other _ _ _ _ _ hmn, getD_set_other _ _ _ _ _ hmn]
      exact hent m hm'
  · have hmass0 : 0 ≤ s.mass := by
      rw [hm]
      have : (0 : Int) ≤ s.histogram.sum := List.sum_nonneg hnn
      unfold sumCounts
      exact_mod_cast this
    have e1 : ENTROPY flog s.mass = contribution flog s.mass :=
      ENTROPY_eq_contribution flog s.mass hmass0
    have e2 : ENTROPY flog (s.mass + 1) = contribution flog (s.mass + 1) :=
      ENTROPY_eq_contribution flog (s.mass + 1) (by linarith)
    have e3 : ENTROPY flog ((c + 1 : Int) : Rat) = contribution flog ((c + 1 : Int) : Rat) := by
      apply ENTROPY_eq_contribution
      exact_mod_cast (by omega : (0 : Int) ≤ c + 1)
    have hesum : entropySum flog
        ⟨s.histogram.set n (c + 1),
         s.entropies.set n (ENTROPY flog ((c + 1 : Int) : Rat)),
         s.mass + 1,
         s.totalEntropy + ENTROPY flog s.mass - ENTROPY flog (s.mass + 1)
           - s.entropies.getD n 0 + ENTROPY flog ((c + 1 : Int) : Rat)⟩ =
        entropySum flog s - contribution flog (c : Rat) + contribution flog ((c + 1 : Int) : Rat) := by
      simp only [entropySum]
      exact mapSum_set (fun x => contribution flog (x : Rat)) s.histogram n (c + 1) hn
    simp only [getEntropy] at *
    rw [hesum, hte, hent n hn, e1, e2, e3]
    push_cast
    ring

theorem wellFormed_subOne (flog : Rat → Rat) (i : Int) (s s' : EfficientEntropyHistogram)
    (hwf : WellFormed flog s) (h : subOne flog i s = .ok s') : WellFormed flog s' := by
  rcases (subOne_ok_iff flog i s s').mp h with ⟨hv, hpos, rfl⟩
  rcases hwf with ⟨hlen, hnn, hm, hent, hte⟩
  have hn : i.toNat < s.histogram.length := toNat_lt_length s i hv
  have hne : i.toNat < s.entropies.length := by omega
  set n : Nat := i.toNat
  set c : Int := s.histogram.getD n 0
  have hmass0 : 0 ≤ s.mass := by
    rw [hm]
    have : (0 : Int) ≤ s.histogram.sum := List.sum_nonneg hnn
    unfold sumCounts
    exact_mod_cast this
  have hmass1 : 1 ≤ s.mass := by
    rw [hm]
    have h1 : c ≤ s.histogram.sum := getD_le_sum_int s.histogram n hn hnn
    have : (1 : Int) ≤ s.histogram.sum := by omega
    unfold sumCounts
    exact_mod_cast this
  have e1 : ENTROPY flog s.mass = contribution flog s.mass :=
    ENTROPY_eq_contribution flog s.mass hmass0
  have e2 : ENTROPY flog (s.mass - 1) = contribution flog (s.mass - 1) :=
    ENTROPY_eq_contribution flog (s.mass - 1) (by linarith)
  have hsum : ((s.histogram.set n (c - 1)).sum : Rat) = sumCounts s - 1 := by
    rw [sum_set_int s.histogram n (c - 1) hn]
    unfold sumCounts
    push_cast
    ring
  have hmapsum : ((s.histogram.set n (c - 1)).map (fun x : Int => contribution flog (x : Rat))).sum =
      (s.histogram.map (fun x : Int => contribution flog (x : Rat))).sum
        - contribution flog (c : Rat) + contribution flog ((c - 1 : Int) : Rat) :=
    mapSum_set (fun x => contribution flog (x : Rat)) s.histogram n (c - 1) hn
  by_cases hlt : c - 1 < 1
  · have hc1 : c = 1 := by omega
    simp only [hlt, if_true]
    refine ⟨by simp [hlen], ?_, ?_, ?_, ?_⟩
    · intro x hx
      rcases mem_of_mem_set _ _ _ _ hx with h' | h'
      · exact hnn x h'
      · omega
    · simp only [sumCounts]
      rw [show ((s.histogram.set n (c - 1)).sum : Int) = (s.histogram.set n (c - 1)).sum from rfl]
      rw [hm]
      unfold sumCounts at hsum ⊢
      push_cast at hsum ⊢
      linarith
    · intro m hm'
      simp only [List.length_set] at hm'
      by_cases hmn : m = n
      · subst hmn
        rw [getD_set_self _ _ _ _ hne, getD_set_self _ _ _ _ hn]
        simp [hc1, contribution]
      · rw [getD_set_other _ _ _ _ _ hmn, getD_set_other _ _ _ _ _ hmn]
        exact hent m hm'
    · simp only [entropySum] at hte ⊢
      rw [hmapsum, hte, hent n hn, e1, e2]
      have hzero : contribution flog ((c - 1 : Int) : Rat) = 0 := by
        rw [hc1]
        norm_num [contribution]
      rw [hzero]
      ring
  · simp only [hlt, if_false]
    have e3 : ENTROPY flog ((c - 1 : Int) : Rat) = contribution flog ((c - 1 : Int) : Rat) := by
      apply ENTROPY_eq_contribution
      exact_mod_cast (by omega : (0 : Int) ≤ c - 1)
    refine ⟨by simp [hlen], ?_, ?_, ?_, ?_⟩
    · intro x hx
      rcases mem_of_mem_set _ _ _ _ hx with h' | h'
      · exact hnn x h'
      · omega
    · simp only [sumCounts]
      rw [hm]
      unfold sumCounts at hsum ⊢
      push_cast at hsum ⊢
      linarith
    · intro m hm'
      simp only [List.length_set] at hm'
      by_cases hmn : m = n
      · subst hmn
        rw [getD_set_self _ _ _ _ hne, getD_set_self _ _ _ _ hn]
        exact e3
      · rw [getD_set_other _ _ _ _ _ hmn, getD_set_other _ _ _ _ _ hmn]
        exact hent m hm'
    · simp only [entropySum] at hte ⊢
      rw [hmapsum, hte, hent n hn, e1, e2, e3]
      ring

theorem wellFormed_reachable (flog : Rat → Rat) (s : EfficientEntropyHistogram)
    (h : Reachable flog s) : WellFormed flog s := by
  induction h with
  | fresh b => exact wellFormed_fresh flog b
  | add s s' i hs h ih => exact wellFormed_addOne flog i s s' ih h
  | sub s s' i hs h ih => exact wellFormed_subOne flog i s s' ih h

end EfficientEntropyHistogram

/-- Concrete logarithm approximation used to instantiate witnesses: it agrees
with the exact base-2 logarithm at the arguments 1, 2 and 4. -/
def flog0 : Rat → Rat := fun q => if q = 2 then 1 else if q = 4 then 2 else 0

namespace EfficientEntropyHistogram

/-- C1: for every bin count `b ≥ 0` and every sequence of valid
`addOne`/`subOne` calls applied to a freshly constructed histogram with `b`
bins, after each call `getMass()` equals the sum of `at(i)` over all bins,
and `getEntropy()` equals `(Σ contribution(at(i))) - contribution(getMass())`
with `contribution(n) = -n·fastlog2(n)` for `n > 0` and `contribution(0) = 0`,
in the exact arithmetic of the embedding over the live logarithm
approximation `flog`. -/
theorem C1_invariant_after_each_call (flog : Rat → Rat) (s : EfficientEntropyHistogram)
    (h : Reachable flog s) :
    s.getMass = sumCounts s ∧
    s.getEntropy = entropySum flog s - contribution flog s.getMass := by
  rcases wellFormed_reachable flog s h with ⟨-, -, hm, -, hte⟩
  exact ⟨hm, hte⟩

/-- Witness for C1 at a concrete reachable state: the fresh 2-bin histogram
after one `addOne(0)`. -/
theorem C1_invariant_witness :
    (⟨[1, 0], [0, 0], 1, 0⟩ : EfficientEntropyHistogram).getMass =
        sumCounts ⟨[1, 0], [0, 0], 1, 0⟩ ∧
    (⟨[1, 0], [0, 0], 1, 0⟩ : EfficientEntropyHistogram).getEntropy =
      entropySum flog0 ⟨[1, 0], [0, 0], 1, 0⟩ -
        contribution flog0 (⟨[1, 0], [0, 0], 1, 0⟩ : EfficientEntropyHistogram).getMass :=
  C1_invariant_after_each_call flog0 ⟨[1, 0], [0, 0], 1, 0⟩
    (Reachable.add (freshHistogram 2) ⟨[1, 0], [0, 0], 1, 0⟩ 0 (Reachable.fresh 2)
      (by norm_num [addOne, freshHistogram, ENTROPY, validIndex, flog0, List.replicate]))

/-- Characterization of the `isPure` scan: it returns `true` iff the number
of positive bins, plus one if the `nonPure` flag is already set, is at
most 1. -/
theorem isPureAux_spec (l : List Int) (flag : Bool) :
    isPureAux l flag = true ↔
      l.countP (fun c => decide (0 < c)) + (if flag then 1 else 0) ≤ 1 := by
  induction l generalizing flag with
  | nil => cases flag <;> simp [isPureAux]
  | cons a as ih =>
    by_cases ha : a > 0
    · cases flag with
      | false =>
        simp only [isPureAux, ha, if_true, Bool.false_eq_true, if_false]
        rw [ih true]
        simp [List.countP_cons, ha]
      | true =>
        simp only [isPureAux, ha, if_true]
        simp [List.countP_cons, ha]
    · simp only [isPureAux, ha, if_false]
      rw [ih flag]
      simp [List.countP_cons, ha]

/-- C8: `isPure()` returns true iff at most one bin has a nonzero count
(on histograms whose counts are non-negative, as the data model requires);
the all-zero histogram, including the zero-bin one, is pure. The operation
is a pure function of the state in this embedding, so it is read-only by
construction. -/
theorem C8_isPure_iff (s : EfficientEntropyHistogram)
    (h : ∀ c ∈ s.histogram, 0 ≤ c) :
    s.isPure = true ↔ s.histogram.countP (fun c => decide (c ≠ 0)) ≤ 1 := by
  unfold isPure
  rw [isPureAux_spec s.histogram false]
  have hcong : s.histogram.countP (fun c => decide (0 < c)) =
      s.histogram.countP (fun c => decide (c ≠ 0)) := by
    apply List.countP_congr
    intro c hc
    have := h c hc
    by_cases hc0 : c = 0
    · simp [hc0]
    · simp [hc0]
      omega
  rw [hcong]
  simp

/-- Witness for C8 at a concrete state with exactly one nonzero bin. -/
theorem C8_isPure_witness :
    ((⟨[0, 2, 0], [0, 0, 0], 2, 0⟩ : EfficientEntropyHistogram).isPure = true ↔
      (⟨[0, 2, 0], [0, 0, 0], 2, 0⟩ :
        EfficientEntropyHistogram).histogram.countP (fun c => decide (c ≠ 0)) ≤ 1) :=
  C8_isPure_iff ⟨[0, 2, 0], [0, 0, 0], 2, 0⟩ (by decide)

end EfficientEntropyHistogram

namespace Util

/-! ### hammingDist: specification lemmas -/

/-- The initial value of the `hammingDist` loop — the length-difference
branches of the source — equals the absolute difference of the lengths. -/
theorem lenDiff_eq (m n : Nat) :
    (if m > n then m - n else if n > m then n - m else 0) = max m n - min m n := by
  rcases Nat.lt_trichotomy m n with h | h | h
  · rw [if_neg (by omega), if_pos h]
    omega
  · simp [h]
  · rw [if_pos h]
    omega

/-- The common-prefix loop counts exactly the indices below the smaller
length at which the two vectors differ. -/
theorem mismatchCount_eq {α : Type} [DecidableEq α] :
    ∀ v1 v2 : List α, mismatchCount v1 v2 =
      (List.range (min v1.length v2.length)).countP
        (fun i => decide (v1.get? i ≠ v2.get? i))
  | [], v2 => by cases v2 <;> simp [mismatchCount]
  | a :: as, [] => by simp [mismatchCount]
  | a :: as, b :: bs => by
    rw [show mismatchCount (a :: as) (b :: bs) =
        (if a ≠ b then 1 else 0) + mismatchCount as bs from rfl]
    rw [mismatchCount_eq as bs]
    have hmin : min (a :: as).length (b :: bs).length = min as.length bs.length + 1 := by
      simp [Nat.succ_min_succ]
    rw [hmin, List.range_succ_eq_map, List.countP_cons, List.countP_map]
    simp only [Function.comp_def, Nat.succ_eq_add_one, List.get?_cons_succ, List.get?_cons_zero]
    by_cases hab : a = b
    · simp [hab]
    · simp [hab]
      omega

/-- Swapping the arguments does not change the loop count. -/
theorem mismatchCount_comm {α : Type} [DecidableEq α] :
    ∀ v1 v2 : List α, mismatchCount v1 v2 = mismatchCount v2 v1
  | [], v2 => by cases v2 <;> rfl
  | a :: as, [] => rfl
  | a :: as, b :: bs => by
    rw [show mismatchCount (a :: as) (b :: bs) =
        (if a ≠ b then 1 else 0) + mismatchCount as bs from rfl]
    rw [show mismatchCount (b :: bs) (a :: as) =
        (if b ≠ a then 1 else 0) + mismatchCount bs as from rfl]
    rw [mismatchCount_comm as bs]
    congr 1
    by_cases hab : a = b
    · simp [hab]
    · have hba : b ≠ a := fun hba => hab hba.symm
      simp [hab, hba]

/-- Unfolding `hammingDist` on two cons cells. -/
theorem hammingDist_cons {α : Type} [DecidableEq α] (a b : α) (as bs : List α) :
    hammingDist (a :: as) (b :: bs) =
      (if a ≠ b then 1 else 0) + hammingDist as bs := by
  unfold hammingDist
  rw [show mismatchCount (a :: as) (b :: bs) =
      (if a ≠ b then 1 else 0) + mismatchCount as bs from rfl]
  simp only [List.length_cons]
  rw [lenDiff_eq, lenDiff_eq]
  have hmax : max (as.length + 1) (bs.length + 1) = max as.length bs.length + 1 := by omega
  have hmin : min (as.length + 1) (bs.length + 1) = min as.length bs.length + 1 := by omega
  rw [hmax, hmin]
  omega

/-- A zero distance forces equality, entry by entry. -/
theorem hammingDist_eq_zero_iff {α : Type} [DecidableEq α] :
    ∀ v1 v2 : List α, hammingDist v1 v2 = 0 ↔ v1 = v2
  | [], [] => by simp [hammingDist, mismatchCount]
  | [], b :: bs => by simp [hammingDist, mismatchCount]
  | a :: as, [] => by simp [hammingDist, mismatchCount]
  | a :: as, b :: bs => by
    rw [hammingDist_cons]
    constructor
    · intro h
      have hab : a = b := by
        by_cases hab : a = b
        · exact hab
        · simp [hab] at h
      have htail : hammingDist as bs = 0 := by
        simpa [hab] using h
      have := (hammingDist_eq_zero_iff as bs).mp htail
      rw [hab, this]
    · intro h
      injection h with h1 h2
      simp [h1, (hammingDist_eq_zero_iff as bs).mpr h2]

/-- C9: `Util::hammingDist` returns the absolute difference of the lengths
plus the number of indices below the smaller length at which the vectors
differ; consequently it accepts unequal lengths (it is a total function in
this embedding), is symmetric, and vanishes exactly on equal vectors. -/
theorem C9_hammingDist_spec {α : Type} [DecidableEq α] (v1 v2 : List α) :
    hammingDist v1 v2 = (max v1.length v2.length - min v1.length v2.length) +
      (List.range (min v1.length v2.length)).countP
        (fun i => decide (v1.get? i ≠ v2.get? i)) ∧
    hammingDist v1 v2 = hammingDist v2 v1 ∧
    (hammingDist v1 v2 = 0 ↔ v1 = v2) := by
  refine ⟨?_, ?_, hammingDist_eq_zero_iff v1 v2⟩
  · unfold hammingDist
    rw [mismatchCount_eq v1 v2, lenDiff_eq]
  · unfold hammingDist
    rw [mismatchCount_comm v1 v2, lenDiff_eq, lenDiff_eq,
      Nat.max_comm, Nat.min_comm]

/-! ### argMax: specification lemmas -/

/-- Invariant of the `argMax` scan: the result is either the incoming
`index` (when nothing in the remaining list beats `arg`), or `i + k` for
the first position `k` in the remaining list holding a new maximum. -/
theorem argMaxGo_spec {α : Type} [LinearOrder α] :
    ∀ (xs : List α) (arg : α) (index i : Nat),
    (argMaxGo xs arg index i = index ∧ ∀ x ∈ xs, x ≤ arg) ∨
    (∃ k, ∃ hk : k < xs.length, argMaxGo xs arg index i = i + k ∧
      arg < xs.get ⟨k, hk⟩ ∧
      (∀ j, ∀ hj : j < xs.length, xs.get ⟨j, hj⟩ ≤ xs.get ⟨k, hk⟩) ∧
      (∀ j, ∀ hj : j < xs.length, j < k → xs.get ⟨j, hj⟩ < xs.get ⟨k, hk⟩))
  | [], arg, index, i => Or.inl ⟨rfl, by simp⟩
  | x :: xs, arg, index, i => by
    by_cases hx : x > arg
    · rw [show argMaxGo (x :: xs) arg index i = argMaxGo xs x i (i + 1) from by
        simp [argMaxGo, hx]]
      rcases argMaxGo_spec xs x i (i + 1) with ⟨heq, hall⟩ | ⟨k, hk, heq, hlt, hmax, hstrict⟩
      · right
        refine ⟨0, by simp, by omega, hx, ?_, ?_⟩
        · intro j hj
          cases j with
          | zero => simp
          | succ m =>
            simp only [List.get_cons_succ, List.get_cons_zero]
            exact hall _ (List.get_mem xs _ _)
        · intro j hj hj0
          omega
      · right
        refine ⟨k + 1, by simpa using hk, by omega, ?_, ?_, ?_⟩
        · simpa using lt_trans hx hlt
        · intro j hj
          cases j with
          | zero => simpa using le_of_lt hlt
          | succ m => simpa using hmax m (by simpa using hj)
        · intro j hj hjk
          cases j with
          | zero => simpa using hlt
          | succ m => simpa using hstrict m (by simpa using hj) (by omega)
    · rw [show argMaxGo (x :: xs) arg index i = argMaxGo xs arg index (i + 1) from by
        simp [argMaxGo, hx]]
      push_neg at hx
      rcases argMaxGo_spec xs arg index (i + 1) with ⟨heq, hall⟩ | ⟨k, hk, heq, hlt, hmax, hstrict⟩
      · left
        refine ⟨heq, ?_⟩
        intro y hy
        rcases List.mem_cons.mp hy with h | h
        · exact h ▸ hx
        · exact hall y h
      · right
        refine ⟨k + 1, by simpa using hk, by omega, ?_, ?_, ?_⟩
        · simpa using hlt
        · intro j hj
          cases j with
          | zero => simpa using le_of_lt (lt_of_le_of_lt hx hlt)
          | succ m => simpa using hmax m (by simpa using hj)
        · intro j hj hjk
          cases j with
          | zero => simpa using lt_of_le_of_lt hx hlt
          | succ m => simpa using hstrict m (by simpa using hj) (by omega)

/-- C10: on a non-empty vector, `Util::argMax` returns the smallest index of
a maximal element — the entry there dominates every entry, and every entry
strictly before that index is strictly smaller; on the empty vector the
result is 0. -/
theorem C10_argMax_spec {α : Type} [LinearOrder α] (v : List α) (h : v ≠ []) :
    (∃ m, v.get? (argMax v) = some m ∧
      (∀ j x, v.get? j = some x → x ≤ m) ∧
      (∀ j x, j < argMax v → v.get? j = some x → x < m)) ∧
    argMax ([] : List α) = 0 := by
  refine ⟨?_, rfl⟩
  match v, h with
  | a :: rest, _ =>
    rw [show argMax (a :: rest) = argMaxGo rest a 0 1 from rfl]
    rcases argMaxGo_spec rest a 0 1 with ⟨heq, hall⟩ | ⟨k, hk, heq, hlt, hmax, hstrict⟩
    · refine ⟨a, by rw [heq]; rfl, ?_, ?_⟩
      · intro j x hx
        cases j with
        | zero =>
          rw [List.get?_cons_zero] at hx
          injection hx with hx
          exact hx ▸ le_refl a
        | succ m =>
          rw [List.get?_cons_succ] at hx
          exact hall x (List.get?_mem hx)
      · intro j x hj hx
        rw [heq] at hj
        omega
    · refine ⟨rest.get ⟨k, hk⟩, ?_, ?_, ?_⟩
      · rw [heq, show (1 : Nat) + k = k + 1 from by omega, List.get?_cons_succ]
        exact List.get?_eq_get hk
      · intro j x hx
        cases j with
        | zero =>
          rw [List.get?_cons_zero] at hx
          injection hx with hx
          exact hx ▸ le_of_lt hlt
        | succ m =>
          rw [List.get?_cons_succ] at hx
          rcases List.get?_eq_some.mp hx with ⟨hm, hget⟩
          exact hget ▸ hmax m hm
      · intro j x hj hx
        rw [heq] at hj
        cases j with
        | zero =>
          rw [List.get?_cons_zero] at hx
          injection hx with hx
          exact hx ▸ hlt
        | succ m =>
          rw [List.get?_cons_succ] at hx
          rcases List.get?_eq_some.mp hx with ⟨hm, hget⟩
          exact hget ▸ hstrict m hm (by omega)

/-- Witness for C10 at the concrete vector `[3, 7, 7, 2]` (and the empty
vector of integers). -/
theorem C10_argMax_witness :
    (∃ m, ([3, 7, 7, 2] : List Int).get? (argMax ([3, 7, 7, 2] : List Int)) = some m ∧
      (∀ j x, ([3, 7, 7, 2] : List Int).get? j = some x → x ≤ m) ∧
      (∀ j x, j < argMax ([3, 7, 7, 2] : List Int) →
        ([3, 7, 7, 2] : List Int).get? j = some x → x < m)) ∧
    argMax ([] : List Int) = 0 :=
  C10_argMax_spec ([3, 7, 7, 2] : List Int) (by decide)

end Util

namespace EfficientEntropyHistogram

/-- C4: on every reachable state and for every valid bin index, `addOne(i)`
immediately followed by `subOne(i)` restores `at(i)`, `getMass()` and
`getEntropy()` to exactly their previous values, in exact arithmetic. -/
theorem C4_addOne_subOne_inverse (flog : Rat → Rat) (i : Int)
    (s s1 s2 : EfficientEntropyHistogram)
    (hre : Reachable flog s)
    (h1 : addOne flog i s = .ok s1)
    (h2 : subOne flog i s1 = .ok s2) :
    s2.countAt i = s.countAt i ∧ s2.getMass = s.getMass ∧
      s2.getEntropy = s.getEntropy := by
  rcases wellFormed_reachable flog s hre with ⟨hlen, hnn, hm, hent, hte⟩
  rcases (addOne_ok_iff flog i s s1).mp h1 with ⟨hv, hs1⟩
  have hn : i.toNat < s.histogram.length := toNat_lt_length s i hv
  have hne : i.toNat < s.entropies.length := by omega
  set n : Nat := i.toNat
  set c : Int := s.histogram.getD n 0 with hc_def
  have hc0 : 0 ≤ c := hnn _ (getD_mem _ _ _ hn)
  have hs1hist : s1.histogram = s.histogram.set n (c + 1) := by rw [hs1]
  have hs1ent : s1.entropies = s.entropies.set n (ENTROPY flog ((c + 1 : Int) : Rat)) := by
    rw [hs1]
  have hs1mass : s1.mass = s.mass + 1 := by rw [hs1]
  have hs1te : s1.totalEntropy = s.totalEntropy + ENTROPY flog s.mass
      - ENTROPY flog (s.mass + 1) - s.entropies.getD n 0
      + ENTROPY flog ((c + 1 : Int) : Rat) := by rw [hs1]
  have hs1len : s1.histogram.length = s.histogram.length := by
    rw [hs1hist]
    simp
  have hs1getD : s1.histogram.getD n 0 = c + 1 := by
    rw [hs1hist]
    exact getD_set_self _ _ _ _ hn
  have hs1entD : s1.entropies.getD n 0 = ENTROPY flog ((c + 1 : Int) : Rat) := by
    rw [hs1ent]
    exact getD_set_self _ _ _ _ hne
  rcases (subOne_ok_iff flog i s1 s2).mp h2 with ⟨hv1, hpos1, hs2⟩
  rw [hs1getD] at hs2
  simp only [show c + 1 - 1 = c from by ring] at hs2
  have hmass1 : s1.mass - 1 = s.mass := by rw [hs1mass]; ring
  have key : s2.histogram = s1.histogram.set n c ∧ s2.mass = s1.mass - 1 ∧
      s2.totalEntropy = s.totalEntropy - s.entropies.getD n 0
        + contribution flog (c : Rat) := by
    by_cases hcase : c < 1
    · have hc_eq : c = 0 := by omega
      rw [if_pos hcase] at hs2
      refine ⟨by rw [hs2], by rw [hs2], ?_⟩
      rw [hs2]
      simp only [hs1te, hs1mass, hs1entD, hmass1]
      have : contribution flog (c : Rat) = 0 := by
        rw [hc_eq]
        norm_num [contribution]
      rw [this]
      ring_nf
    · rw [if_neg hcase] at hs2
      refine ⟨by rw [hs2], by rw [hs2], ?_⟩
      rw [hs2]
      simp only [hs1te, hs1mass, hs1entD, hmass1]
      have : contribution flog (c : Rat) = ENTROPY flog (c : Rat) := by
        rw [ENTROPY_eq_contribution flog ((c : Int) : Rat) (by exact_mod_cast hc0)]
      rw [this]
      ring_nf
  rcases key with ⟨hh, hmm, htt⟩
  have hs2len : s2.histogram.length = s.histogram.length := by
    rw [hh, hs1hist]
    simp
  have hs2getD : s2.histogram.getD n 0 = c := by
    rw [hh]
    apply getD_set_self
    rw [hs1len]
    exact hn
  have hv2 : s2.validIndex i := by
    rcases hv with ⟨h0, hlt'⟩
    exact ⟨h0, by rw [hs2len]; exact hlt'⟩
  refine ⟨?_, ?_, ?_⟩
  · rw [countAt, countAt, if_pos hv2, if_pos hv, hs2getD]
  · rw [getMass, getMass, hmm, hmass1]
  · rw [getEntropy, getEntropy, htt, hent n hn]
    ring

/-- Witness for C4: the fresh 1-bin histogram, `addOne(0)` then `subOne(0)`
with a concrete logarithm approximation. -/
theorem C4_addOne_subOne_witness :
    (⟨[0], [0], 0, 0⟩ : EfficientEntropyHistogram).countAt 0 =
        (freshHistogram 1).countAt 0 ∧
    (⟨[0], [0], 0, 0⟩ : EfficientEntropyHistogram).getMass =
        (freshHistogram 1).getMass ∧
    (⟨[0], [0], 0, 0⟩ : EfficientEntropyHistogram).getEntropy =
        (freshHistogram 1).getEntropy :=
  C4_addOne_subOne_inverse flog0 0 (freshHistogram 1) ⟨[1], [0], 1, 0⟩ ⟨[0], [0], 0, 0⟩
    (Reachable.fresh 1)
    (by norm_num [addOne, freshHistogram, ENTROPY, validIndex, flog0, List.replicate])
    (by norm_num [subOne, ENTROPY, validIndex, flog0])

/-- Successful iterated `addOne` on bin `j` from a fresh `b`-bin histogram:
the result is reachable, has mass `n`, and its count array is the all-zero
array with `n` written at bin `j` (or is the fresh state when `n = 0`). -/
theorem addOneN_ok_characterization (flog : Rat → Rat) (j : Int) (b : Nat) :
    ∀ (n : Nat) (s : EfficientEntropyHistogram),
      addOneN flog j n (freshHistogram b) = .ok s →
      Reachable flog s ∧ s.mass = (n : Rat) ∧
      (n = 0 ∧ s = freshHistogram b ∨
       (0 ≤ j ∧ j.toNat < b ∧
        s.histogram = (List.replicate b 0).set j.toNat (n : Int)))
  | 0, s => by
    intro h
    rw [addOneN] at h
    injection h with h
    subst h
    exact ⟨Reachable.fresh b, by simp [freshHistogram], Or.inl ⟨rfl, rfl⟩⟩
  | n + 1, s' => by
    intro h
    rw [addOneN] at h
    rcases hbind : addOneN flog j n (freshHistogram b) with e | s
    · rw [hbind] at h
      exact Except.noConfusion h
    · rw [hbind] at h
      simp only [Except.bind] at h
      rcases addOneN_ok_characterization flog j b n s hbind with ⟨hreach, hmass, hchar⟩
      rcases (addOne_ok_iff flog j s s').mp h with ⟨hv, hs'⟩
      have hreach' : Reachable flog s' := Reachable.add s s' j hreach h
      have hlenb : s.histogram.length = b := by
        rcases hchar with ⟨-, rfl⟩ | ⟨-, -, hh⟩
        · simp [freshHistogram]
        · rw [hh]
          simp
      have hjb : j.toNat < b := by
        have := toNat_lt_length s j hv
        omega
      refine ⟨hreach', by rw [hs']; rw [hmass]; push_cast; ring, Or.inr ⟨hv.1, hjb, ?_⟩⟩
      rcases hchar with ⟨hn0, rfl⟩ | ⟨-, -, hh⟩
      · subst hn0
        rw [hs']
        have : (freshHistogram b).histogram.getD j.toNat 0 = 0 := by
          simp only [freshHistogram]
          simp [List.getD, List.getElem?_replicate, hjb]
        rw [this]
        simp [freshHistogram]
      · rw [hs', hh]
        have hget : ((List.replicate b (0 : Int)).set j.toNat (n : Int)).getD j.toNat 0 =
            (n : Int) := by
          apply getD_set_self
          simp [hjb]
        rw [hget, List.set_set]
        show (List.replicate b (0 : Int)).set j.toNat ((n : Int) + 1) =
          (List.replicate b 0).set j.toNat ((n + 1 : Nat) : Int)
        congr 1

/-- C6: a histogram built by any number `n ≥ 0` of valid `addOne` calls to
one and the same bin of a fresh histogram has `getEntropy()` exactly 0, and
every reachable histogram with `getMass() = 0` has `getEntropy() = 0`, in
exact arithmetic. -/
theorem C6_single_bin_zero_entropy (flog : Rat → Rat) (b n : Nat) (j : Int)
    (s t : EfficientEntropyHistogram)
    (hs : addOneN flog j n (freshHistogram b) = .ok s)
    (ht : Reachable flog t) (hm : t.getMass = 0) :
    s.getEntropy = 0 ∧ t.getEntropy = 0 := by
  constructor
  · rcases addOneN_ok_characterization flog j b n s hs with ⟨hreach, hmass, hchar⟩
    rcases wellFormed_reachable flog s hreach with ⟨-, -, -, -, hte⟩
    rcases hchar with ⟨-, rfl⟩ | ⟨-, hjb, hh⟩
    · rfl
    · have hsum : entropySum flog s = contribution flog ((n : Int) : Rat) := by
        unfold entropySum
        rw [hh]
        have hrep : j.toNat < (List.replicate b (0 : Int)).length := by simp [hjb]
        rw [mapSum_set (fun x : Int => contribution flog (x : Rat)) _ _ _ hrep]
        have h0 : (List.replicate b (0 : Int)).getD j.toNat 0 = 0 := by
          simp [List.getD, List.getElem?_replicate, hjb]
        rw [h0, List.map_replicate]
        have hz : contribution flog ((0 : Int) : Rat) = 0 := by
          norm_num [contribution]
        rw [hz, List.sum_replicate]
        simp
      rw [getEntropy, hte, hsum, hmass]
      have : ((n : Int) : Rat) = (n : Rat) := by push_cast; ring
      rw [this]
      ring
  · rcases wellFormed_reachable flog t ht with ⟨-, hnn, hmm, -, hte⟩
    rw [getMass] at hm
    have hsum0 : t.histogram.sum = 0 := by
      have h2 : sumCounts t = 0 := by
        rw [← hmm]
        exact hm
      have h3 : ((t.histogram.sum : Int) : Rat) = 0 := h2
      exact_mod_cast h3
    have hall0 : ∀ c ∈ t.histogram, c = 0 := all_zero_of_sum_zero _ hnn hsum0
    have hes : entropySum flog t = 0 := by
      unfold entropySum
      apply List.sum_eq_zero
      intro x hx
      rcases List.mem_map.mp hx with ⟨c, hc, hxc⟩
      rw [← hxc, hall0 c hc]
      norm_num [contribution]
    rw [getEntropy, hte, hes, hm]
    norm_num [contribution]

/-- Witness for C6: two `addOne(0)` calls on a fresh 2-bin histogram, and
the fresh 0-bin histogram as the empty case. -/
theorem C6_single_bin_witness :
    (⟨[2, 0], [-2, 0], 2, 0⟩ : EfficientEntropyHistogram).getEntropy = 0 ∧
    (freshHistogram 0).getEntropy = 0 :=
  C6_single_bin_zero_entropy flog0 2 2 0 ⟨[2, 0], [-2, 0], 2, 0⟩ (freshHistogram 0)
    (by norm_num [addOneN, addOne, freshHistogram, ENTROPY, validIndex, flog0,
      List.replicate, Except.bind])
    (Reachable.fresh 0) rfl

/-- Counterexample to C2 as stated: on a 1-bin histogram holding one
observation, `resize(0)` leaves `getMass() = 1` (and would likewise leave
`getEntropy()` untouched), because the `reset()` call in the source is
guarded by `if (newBins > 0)`. -/
theorem C2_resize_zero_counterexample :
    ((addOne flog0 0 (freshHistogram 1)).bind (resize 0)).map getMass =
      .ok 1 ∧ (1 : Rat) ≠ 0 := by
  constructor
  · norm_num [addOne, freshHistogram, ENTROPY, validIndex, flog0, List.replicate,
      resize, Except.bind, Except.map, getMass]
  · norm_num

/-- C2 as amended: for `newBins ≥ 1`, `resize(newBins)` unconditionally
yields the all-zero state with `newBins` bins — also when `newBins` equals
the current bin count; for `newBins = 0` the histogram ends with 0 bins and
empty arrays, but `getMass()` and `getEntropy()` retain their previous
values. Stated for states whose parallel arrays have equal length (true of
every constructible state). -/
theorem C2_resize_amended (s s' : EfficientEntropyHistogram) (newBins : Int)
    (hlen : s.entropies.length = s.histogram.length)
    (h : resize newBins s = .ok s') :
    s'.getSize = max newBins 0 ∧
    (0 < newBins →
      s'.histogram = List.replicate newBins.toNat 0 ∧
      s'.entropies = List.replicate newBins.toNat 0 ∧
      s'.getMass = 0 ∧ s'.getEntropy = 0) ∧
    (newBins = 0 →
      s'.histogram = [] ∧ s'.entropies = [] ∧
      s'.getMass = s.getMass ∧ s'.getEntropy = s.getEntropy) := by
  unfold resize at h
  by_cases hneg : newBins < 0
  · rw [if_pos hneg] at h
    exact Except.noConfusion h
  · rw [if_neg hneg] at h
    by_cases hpos : 0 < newBins
    · rw [if_pos hpos] at h
      injection h with h
      subst h
      refine ⟨?_, fun _ => ⟨rfl, rfl, rfl, rfl⟩, fun h0 => absurd h0 (by omega)⟩
      simp [getSize]
    · have h0 : newBins = 0 := by omega
      subst h0
      rw [if_neg hpos] at h
      by_cases hnil : s.histogram.length = 0
      · rw [if_pos hnil] at h
        injection h with h
        subst h
        have hh : s.histogram = [] := List.eq_nil_of_length_eq_zero hnil
        have he : s.entropies = [] := List.eq_nil_of_length_eq_zero (by omega)
        exact ⟨by simp [getSize, hnil], fun hc => absurd hc (by omega),
          fun _ => ⟨hh, he, rfl, rfl⟩⟩
      · rw [if_neg hnil] at h
        injection h with h
        subst h
        exact ⟨by simp [getSize], fun hc => absurd hc (by omega),
          fun _ => ⟨rfl, rfl, rfl, rfl⟩⟩

/-- Witness for the amended C2 at `newBins = 0` on a state with one
observation: the arrays empty out while mass and entropy survive. -/
theorem C2_resize_amended_witness :
    (⟨[], [], 1, 0⟩ : EfficientEntropyHistogram).getSize = max 0 0 ∧
    (0 < (0 : Int) →
      (⟨[], [], 1, 0⟩ : EfficientEntropyHistogram).histogram =
        List.replicate (0 : Int).toNat 0 ∧
      (⟨[], [], 1, 0⟩ : EfficientEntropyHistogram).entropies =
        List.replicate (0 : Int).toNat 0 ∧
      (⟨[], [], 1, 0⟩ : EfficientEntropyHistogram).getMass = 0 ∧
      (⟨[], [], 1, 0⟩ : EfficientEntropyHistogram).getEntropy = 0) ∧
    ((0 : Int) = 0 →
      (⟨[], [], 1, 0⟩ : EfficientEntropyHistogram).histogram = [] ∧
      (⟨[], [], 1, 0⟩ : EfficientEntropyHistogram).entropies = [] ∧
      (⟨[], [], 1, 0⟩ : EfficientEntropyHistogram).getMass =
        (⟨[1], [0], 1, 0⟩ : EfficientEntropyHistogram).getMass ∧
      (⟨[], [], 1, 0⟩ : EfficientEntropyHistogram).getEntropy =
        (⟨[1], [0], 1, 0⟩ : EfficientEntropyHistogram).getEntropy) :=
  C2_resize_amended ⟨[1], [0], 1, 0⟩ ⟨[], [], 1, 0⟩ 0 (by decide)
    (by norm_num [resize])

/-- C5: the error contracts. `resize(-1)` fails with `InvalidArgument`;
`addOne`, `subOne` and `at` on an out-of-range index (in particular
`addOne(b)` on a `b`-bin histogram) fail with `IndexOutOfRange`; `subOne`
on a bin with count 0 fails with `PreconditionViolation`. In this embedding
a failing operation returns only the error and no state, mirroring the
source, where every `BOOST_ASSERT_MSG` precedes the first mutation — so the
caller's histogram is unchanged by a failed call. -/
theorem C5_error_contracts (flog : Rat → Rat) (s : EfficientEntropyHistogram)
    (i k : Int) (hbad : ¬ s.validIndex i) (hk : s.validIndex k)
    (hkzero : s.histogram.getD k.toNat 0 = 0) :
    resize (-1) s = .error .invalidArgument ∧
    addOne flog i s = .error .indexOutOfRange ∧
    subOne flog i s = .error .indexOutOfRange ∧
    s.countAt i = .error .indexOutOfRange ∧
    subOne flog k s = .error .preconditionViolation := by
  refine ⟨?_, ?_, ?_, ?_, ?_⟩
  · unfold resize
    rw [if_pos (by norm_num)]
  · unfold addOne
    rw [if_neg hbad]
  · unfold subOne
    rw [if_neg hbad]
  · unfold countAt
    rw [if_neg hbad]
  · unfold subOne
    rw [if_pos hk, if_neg (by rw [hkzero]; norm_num)]

/-- Witness for C5 on a fresh 2-bin histogram with the out-of-range index 2
(the bin count itself) and the empty bin 0. -/
theorem C5_error_contracts_witness :
    resize (-1) (freshHistogram 2) = .error .invalidArgument ∧
    addOne flog0 2 (freshHistogram 2) = .error .indexOutOfRange ∧
    subOne flog0 2 (freshHistogram 2) = .error .indexOutOfRange ∧
    (freshHistogram 2).countAt 2 = .error .indexOutOfRange ∧
    subOne flog0 0 (freshHistogram 2) = .error .preconditionViolation :=
  C5_error_contracts flog0 (freshHistogram 2) 2 0
    (by norm_num [validIndex, freshHistogram])
    (by norm_num [validIndex, freshHistogram])
    (by norm_num [freshHistogram, List.replicate])

/-- Counterexample to C3 as stated: `addOne(0)` on a fresh 1-bin histogram
(mass 0) evaluates `fastlog2` at the argument 0, which is not positive —
the source computes `ENTROPY(mass)` as `-(mass)*fastlog2(mass)` before the
increment, and C++ evaluates `fastlog2(0)` even though the factor is 0. -/
theorem C3_log_call_counterexample :
    (0 : Rat) ∈ addOneLogCalls 0 (freshHistogram 1) ∧ ¬ (0 : Rat) > 0 := by
  constructor
  · norm_num [addOneLogCalls, freshHistogram, validIndex, List.replicate, List.getD]
  · norm_num

/-- C3 as amended: the bin-count contribution never evaluates `fastlog2` at
a non-positive argument — the contribution of a count that reached 0 is set
explicitly to 0, and every bin-count argument is at least 1 — but the mass
contribution `ENTROPY(mass)` is evaluated even at mass 0: on reachable
states every argument passed to `fastlog2` is non-negative, and an argument
can be 0 only as the mass term (the pre-increment mass in `addOne`, the
post-decrement mass in `subOne`). -/
theorem C3_log_calls_amended (flog : Rat → Rat) (s : EfficientEntropyHistogram)
    (i : Int) (hre : Reachable flog s) :
    (∀ x ∈ addOneLogCalls i s, 0 ≤ x ∧ (x = 0 → x = s.mass)) ∧
    (∀ x ∈ subOneLogCalls i s, 0 ≤ x ∧ (x = 0 → x = s.mass - 1)) := by
  rcases wellFormed_reachable flog s hre with ⟨-, hnn, hm, -, -⟩
  have hmass0 : 0 ≤ s.mass := by
    rw [hm]
    have : (0 : Int) ≤ s.histogram.sum := List.sum_nonneg hnn
    unfold sumCounts
    exact_mod_cast this
  constructor
  · intro x hx
    unfold addOneLogCalls at hx
    by_cases hv : s.validIndex i
    · rw [if_pos hv] at hx
      have hn : i.toNat < s.histogram.length := toNat_lt_length s i hv
      have hc0 : 0 ≤ s.histogram.getD i.toNat 0 := hnn _ (getD_mem _ _ _ hn)
      rcases List.mem_cons.mp hx with rfl | hx
      · exact ⟨hmass0, fun _ => rfl⟩
      rcases List.mem_cons.mp hx with rfl | hx
      · refine ⟨by linarith, fun hx0 => absurd hx0 (by intro h; linarith)⟩
      rcases List.mem_cons.mp hx with rfl | hx
      · have h1 : (1 : Rat) ≤ ((s.histogram.getD i.toNat 0 + 1 : Int) : Rat) := by
          exact_mod_cast (by omega : (1 : Int) ≤ s.histogram.getD i.toNat 0 + 1)
        refine ⟨by linarith, fun hx0 => absurd hx0 (by intro h; rw [h] at h1; linarith)⟩
      · simp at hx
    · rw [if_neg hv] at hx
      simp at hx
  · intro x hx
    unfold subOneLogCalls at hx
    by_cases hv : s.validIndex i
    · rw [if_pos hv] at hx
      by_cases hc : s.histogram.getD i.toNat 0 > 0
      · rw [if_pos hc] at hx
        have hn : i.toNat < s.histogram.length := toNat_lt_length s i hv
        have hmass1 : 1 ≤ s.mass := by
          rw [hm]
          have h1 : s.histogram.getD i.toNat 0 ≤ s.histogram.sum :=
            getD_le_sum_int s.histogram i.toNat hn hnn
          have : (1 : Int) ≤ s.histogram.sum := by omega
          unfold sumCounts
          exact_mod_cast this
        rcases List.mem_append.mp hx with hx | hx
        · rcases List.mem_cons.mp hx with rfl | hx
          · refine ⟨by linarith, fun hx0 => absurd hx0 (by intro h; linarith)⟩
          rcases List.mem_cons.mp hx with rfl | hx
          · exact ⟨by linarith, fun _ => rfl⟩
          · simp at hx
        · by_cases hlt : s.histogram.getD i.toNat 0 - 1 < 1
          · rw [if_pos hlt] at hx
            simp at hx
          · rw [if_neg hlt] at hx
            rcases List.mem_cons.mp hx with rfl | hx
            · have h1 : (1 : Rat) ≤ ((s.histogram.getD i.toNat 0 - 1 : Int) : Rat) := by
                exact_mod_cast (by omega : (1 : Int) ≤ s.histogram.getD i.toNat 0 - 1)
              refine ⟨by linarith, fun hx0 => absurd hx0 (by intro h; rw [h] at h1; linarith)⟩
            · simp at hx
      · rw [if_neg hc] at hx
        simp at hx
    · rw [if_neg hv] at hx
      simp at hx

/-- Witness for the amended C3 on the reachable state holding one
observation in its single bin. -/
theorem C3_log_calls_witness :
    (∀ x ∈ addOneLogCalls 0 (⟨[1], [0], 1, 0⟩ : EfficientEntropyHistogram),
      0 ≤ x ∧ (x = 0 → x = (⟨[1], [0], 1, 0⟩ : EfficientEntropyHistogram).mass)) ∧
    (∀ x ∈ subOneLogCalls 0 (⟨[1], [0], 1, 0⟩ : EfficientEntropyHistogram),
      0 ≤ x ∧ (x = 0 → x = (⟨[1], [0], 1, 0⟩ : EfficientEntropyHistogram).mass - 1)) :=
  C3_log_calls_amended flog0 ⟨[1], [0], 1, 0⟩ 0
    (Reachable.add (freshHistogram 1) ⟨[1], [0], 1, 0⟩ 0 (Reachable.fresh 1)
      (by norm_num [addOne, freshHistogram, ENTROPY, validIndex, flog0, List.replicate]))

/-- C7: the end-to-end scenario. On a fresh 3-bin histogram, after
`addOne(0)`, `addOne(0)`, `addOne(1)`, `addOne(2)` the mass is 4, the
counts are 2, 1, 1 and the weighted entropy is exactly 6 whenever the
logarithm approximation agrees with the exact base-2 logarithm at 1, 2
and 4 (the entropy is independent of its value elsewhere, e.g. at 3);
after two further `subOne(0)` calls the mass is 2, bin 0 is empty and the
weighted entropy is exactly 2. -/
theorem C7_end_to_end (flog : Rat → Rat) (h1 : flog 1 = 0) (h2 : flog 2 = 1)
    (h4 : flog 4 = 2) :
    (((((mkHistogram 3).bind (addOne flog 0)).bind (addOne flog 0)).bind
        (addOne flog 1)).bind (addOne flog 2)).map
      (fun s => (s.getMass, s.countAt 0, s.countAt 1, s.countAt 2, s.getEntropy)) =
      .ok (4, .ok 2, .ok 1, .ok 1, 6) ∧
    ((((((((mkHistogram 3).bind (addOne flog 0)).bind (addOne flog 0)).bind
        (addOne flog 1)).bind (addOne flog 2)).bind (subOne flog 0)).bind
        (subOne flog 0)).map (fun s => (s.getMass, s.countAt 0, s.getEntropy)) =
      .ok (2, .ok 0, 2)) := by
  have ht2 : (2 : Int).toNat = 2 := rfl
  have e0 : mkHistogram 3 = .ok ⟨[0, 0, 0], [0, 0, 0], 0, 0⟩ := by
    norm_num [mkHistogram, resize, empty, List.replicate]
  have e1 : addOne flog 0 ⟨[0, 0, 0], [0, 0, 0], 0, 0⟩ =
      .ok ⟨[1, 0, 0], [0, 0, 0], 1, 0⟩ := by
    norm_num [addOne, validIndex, ENTROPY, h1, List.getD]
  have e2 : addOne flog 0 ⟨[1, 0, 0], [0, 0, 0], 1, 0⟩ =
      .ok ⟨[2, 0, 0], [-2, 0, 0], 2, 0⟩ := by
    norm_num [addOne, validIndex, ENTROPY, h1, h2, List.getD, Int.toNat_ofNat]
  have e3 : addOne flog 1 ⟨[2, 0, 0], [-2, 0, 0], 2, 0⟩ =
      .ok ⟨[2, 1, 0], [-2, 0, 0], 3, -2 + 3 * flog 3⟩ := by
    norm_num [addOne, validIndex, ENTROPY, h1, h2, List.getD, Int.toNat_ofNat]
  have e4 : addOne flog 2 ⟨[2, 1, 0], [-2, 0, 0], 3, -2 + 3 * flog 3⟩ =
      .ok ⟨[2, 1, 1], [-2, 0, 0], 4, 6⟩ := by
    norm_num [addOne, validIndex, ENTROPY, h1, h4, List.getD, Int.toNat_ofNat, ht2]
  have e5 : subOne flog 0 ⟨[2, 1, 1], [-2, 0, 0], 4, 6⟩ =
      .ok ⟨[1, 1, 1], [0, 0, 0], 3, 3 * flog 3⟩ := by
    norm_num [subOne, validIndex, ENTROPY, h1, h4, List.getD, Int.toNat_ofNat]
  have e6 : subOne flog 0 ⟨[1, 1, 1], [0, 0, 0], 3, 3 * flog 3⟩ =
      .ok ⟨[0, 1, 1], [0, 0, 0], 2, 2⟩ := by
    norm_num [subOne, validIndex, ENTROPY, h2, List.getD, Int.toNat_ofNat]
  constructor
  · simp only [e0, Except.bind, e1, e2, e3, e4, Except.map]
    norm_num [countAt, validIndex, getMass, getEntropy, List.getD, Int.toNat_ofNat, ht2]
  · simp only [e0, Except.bind, e1, e2, e3, e4, e5, e6, Except.map]
    norm_num [countAt, validIndex, getMass, getEntropy, List.getD, Int.toNat_ofNat, ht2]

/-- Witness for C7 with the concrete approximation `flog0`, which matches
the exact base-2 logarithm at 1, 2 and 4. -/
theorem C7_end_to_end_witness :
    (((((mkHistogram 3).bind (addOne flog0 0)).bind (addOne flog0 0)).bind
        (addOne flog0 1)).bind (addOne flog0 2)).map
      (fun s => (s.getMass, s.countAt 0, s.countAt 1, s.countAt 2, s.getEntropy)) =
      .ok (4, .ok 2, .ok 1, .ok 1, 6) ∧
    ((((((((mkHistogram 3).bind (addOne flog0 0)).bind (addOne flog0 0)).bind
        (addOne flog0 1)).bind (addOne flog0 2)).bind (subOne flog0 0)).bind
        (subOne flog0 0)).map (fun s => (s.getMass, s.countAt 0, s.getEntropy)) =
      .ok (2, .ok 0, 2)) :=
  C7_end_to_end flog0 (by norm_num [flog0]) (by norm_num [flog0]) (by norm_num [flog0])

end EfficientEntropyHistogram

end libf
